import Mathlib

/-!
Shallow embedding of the `cron` Go package (`cron.go`).

Go strings are modelled as `List Char`; Go `int` as `Int`, with the 64-bit
range enforced exactly where the source's `strconv.Atoi` enforces it.
Fallible Go functions returning `(T, error)` are modelled with `Option` /
`Except`; a Go `panic` is modelled as `Option.none` of the rendering
functions.
-/

namespace Cron

/-- Go `unicode.IsSpace`, restricted to the Latin-1 range: `'\t'` (9),
`'\n'` (10), `'\v'` (11), `'\f'` (12), `'\r'` (13), `' '` (32),
NEL (133) and NBSP (160).  Characters above U+00FF are treated as
non-space; no input exercised by the repository contains them. -/
def isGoSpace (c : Char) : Bool :=
  c.toNat = 32 || c.toNat = 9 || c.toNat = 10 || c.toNat = 11 ||
  c.toNat = 12 || c.toNat = 13 || c.toNat = 133 || c.toNat = 160

/-- Go `strings.TrimSpace`: drop leading and trailing whitespace. -/
def goTrimSpace (s : List Char) : List Char :=
  ((s.dropWhile isGoSpace).reverse.dropWhile isGoSpace).reverse

/-- Worker for `goFields`: `acc` holds the (reversed) characters of the
token currently being scanned. -/
def goFieldsAux : List Char → List Char → List (List Char)
  | [], acc => if acc = [] then [] else [acc.reverse]
  | c :: rest, acc =>
    if isGoSpace c then
      if acc = [] then goFieldsAux rest []
      else acc.reverse :: goFieldsAux rest []
    else goFieldsAux rest (c :: acc)

/-- Go `strings.Fields`: split around maximal runs of whitespace. -/
def goFields (s : List Char) : List (List Char) :=
  goFieldsAux s []

/-- Go `strings.Split` with a one-character separator. -/
def goSplit (sep : Char) : List Char → List (List Char)
  | [] => [[]]
  | c :: rest =>
    if c = sep then [] :: goSplit sep rest
    else
      match goSplit sep rest with
      | t :: ts => (c :: t) :: ts
      | [] => [[c]]

/-- Go `strings.Join` with an arbitrary separator. -/
def goJoin (sep : List Char) : List (List Char) → List Char
  | [] => []
  | [w] => w
  | w :: ws => w ++ sep ++ goJoin sep ws

/-- Decimal digit character test (`'0'` is 48, `'9'` is 57). -/
def isDigitCh (c : Char) : Bool :=
  48 ≤ c.toNat && c.toNat ≤ 57

/-- Numeric value of a digit character. -/
def digVal (c : Char) : Nat :=
  c.toNat - 48

/-- Digit-run accumulator of `strconv.Atoi`'s digit loop: consume
characters left to right, failing on the first non-digit. -/
def parseDigitsAux : List Char → Nat → Option Nat
  | [], acc => some acc
  | c :: rest, acc =>
    if isDigitCh c then parseDigitsAux rest (acc * 10 + digVal c)
    else none

/-- Digit-string parse: at least one character, all decimal digits. -/
def parseDigits : List Char → Option Nat
  | [] => none
  | c :: rest => parseDigitsAux (c :: rest) 0

/-- Go `strconv.Atoi`: optional sign, then a nonempty digit run, with the
64-bit `int` range check (`ErrRange` is an error, hence `none`). -/
def goAtoi (s : List Char) : Option Int :=
  match s with
  | [] => none
  | c :: rest =>
    if c = '-' then
      match parseDigits rest with
      | some n => if (n : Int) ≤ 2 ^ 63 then some (-(n : Int)) else none
      | none => none
    else if c = '+' then
      match parseDigits rest with
      | some n => if (n : Int) ≤ 2 ^ 63 - 1 then some (n : Int) else none
      | none => none
    else
      match parseDigits (c :: rest) with
      | some n => if (n : Int) ≤ 2 ^ 63 - 1 then some (n : Int) else none
      | none => none

/-- One decimal-digit fold step (used to state what `parseDigitsAux`
computes on an all-digit string). -/
def digStep (x : Nat) (c : Char) : Nat := x * 10 + digVal c

/-- Character of a decimal digit (values `≥ 10` never arise). -/
def dchar (d : Nat) : Char :=
  match d with
  | 0 => '0' | 1 => '1' | 2 => '2' | 3 => '3' | 4 => '4'
  | 5 => '5' | 6 => '6' | 7 => '7' | 8 => '8' | _ => '9'

/-- Fuel-driven digit printer: prepends the decimal digits of `n` to
`acc`; `fuel ≥ n` makes the fuel irrelevant. -/
def natDigitsFuel : Nat → Nat → List Char → List Char
  | 0, _, acc => acc
  | fuel + 1, n, acc =>
    if n = 0 then acc
    else natDigitsFuel fuel (n / 10) (dchar (n % 10) :: acc)

/-- Decimal digit string of a natural number (minimal form, `"0"` for 0). -/
def natDigits (n : Nat) : List Char :=
  if n = 0 then ['0'] else natDigitsFuel n n []

/-- Go `strconv.Itoa`: minimal decimal form with a leading `'-'` for
negative values. -/
def goItoa (v : Int) : List Char :=
  if v < 0 then '-' :: natDigits v.natAbs else natDigits v.toNat

/-- The `fieldType` enumeration of `cron.go`. -/
inductive fieldType where
  | Exact
  | Every
  | Multiple
  | Range
  | Step
  | Any
deriving DecidableEq, Repr

/-- The `Field` struct of `cron.go`: a kind tag plus stored values.
The Go field `Type` is spelled `type` here. -/
structure Field where
  type : fieldType
  values : List Int
deriving DecidableEq, Repr

/-- `Field.check` of `cron.go`: the per-field match predicate.  Go's `%`
on `int` is truncated remainder, i.e. `Int.tmod`. -/
def Field.check (f : Field) (val : Int) : Bool :=
  match f.type with
  | .Exact =>
    match f.values with
    | [v] => v == val
    | _ => false
  | .Every => true
  | .Multiple => f.values.contains val
  | .Range =>
    match f.values with
    | [lo, hi] => decide (lo ≤ val) && decide (val ≤ hi)
    | _ => false
  | .Step =>
    match f.values with
    | [n] => if n ≤ 0 then false else Int.tmod val n == 0
    | _ => false
  | .Any => false

/-- The comma-branch loop of `parseField`: parse every segment as an
integer, failing on the first bad one. -/
def atoiAll : List (List Char) → Option (List Int)
  | [] => some []
  | p :: ps => do
    let v ← goAtoi p
    let vs ← atoiAll ps
    pure (v :: vs)

/-- The body of `parseField` of `cron.go` after its initial
`strings.TrimSpace`: the source's `switch` on the trimmed token `s`, with
the cases in the source's order (`"*"`, then `"*/"`-prefixed, then comma,
then dash, then `"?"`, then plain integer). -/
def parseFieldTrimmed (s : List Char) : Option Field :=
  if s = ['*'] then some ⟨.Every, []⟩
  else
    match s with
    | '*' :: '/' :: rest => (goAtoi rest).map fun v => ⟨.Step, [v]⟩
    | _ =>
      if ',' ∈ s then
        (atoiAll (goSplit ',' s)).map fun vs => ⟨.Multiple, vs⟩
      else if '-' ∈ s then
        match goSplit '-' s with
        | [a, b] =>
          match goAtoi a, goAtoi b with
          | some lo, some hi => some ⟨.Range, [lo, hi]⟩
          | _, _ => none
        | _ => none
      else if s = ['?'] then some ⟨.Any, []⟩
      else (goAtoi s).map fun v => ⟨.Exact, [v]⟩

/-- `parseField` of `cron.go`: `s := strings.TrimSpace(fieldString)`, then
the `switch` on `s` (see `parseFieldTrimmed`). -/
def parseField (fieldString : List Char) : Option Field :=
  parseFieldTrimmed (goTrimSpace fieldString)

/-- `Field.String` of `cron.go`.  The Go function panics when the stored
value count contradicts the kind (for `Exact`, `Multiple`, `Range` and
`Step`); a panic is modelled as `none`.  `Every` and `Any` return `"*"`
and `"?"` without looking at the values. -/
def Field.string (f : Field) : Option (List Char) :=
  match f.type with
  | .Exact =>
    match f.values with
    | [v] => some (goItoa v)
    | _ => none
  | .Every => some ['*']
  | .Multiple =>
    if f.values = [] then none
    else some (goJoin [','] (f.values.map goItoa))
  | .Range =>
    match f.values with
    | [a, b] => some (goItoa a ++ '-' :: goItoa b)
    | _ => none
  | .Step =>
    match f.values with
    | [n] => some ('*' :: '/' :: goItoa n)
    | _ => none
  | .Any => some ['?']

/-- The `Job` struct of `cron.go`. -/
structure Job where
  minute : Field
  hour : Field
  day : Field
  month : Field
  dayOfWeek : Field
  task : List Char
deriving DecidableEq, Repr

/-- Which field's sub-parse failed (the `"minute field: %w"` wrapping). -/
inductive fieldName where
  | minute
  | hour
  | day
  | month
  | dayOfWeek
deriving DecidableEq, Repr

/-- Errors of `Parse`: the token-count error carries the numbers printed
by `"expected at least 6 fields (5 time + task), got %d"` (the message
text says 6 although the guard accepts 5 tokens), and a field error names
the failing field. -/
inductive ParseErr where
  | tooFewFields (expectedAtLeast got : Nat)
  | fieldError (name : fieldName)
deriving DecidableEq, Repr

/-- The per-field stage of `Parse`: parse the five time tokens in the
source's order (minute, hour, day, month, dayOfWeek), returning the first
failure wrapped with the field's name, and join the task tokens with
single spaces. -/
def parseJobFields (t0 t1 t2 t3 t4 : List Char)
    (rest : List (List Char)) : Except ParseErr Job :=
  match parseField t0 with
  | none => .error (.fieldError .minute)
  | some m =>
    match parseField t1 with
    | none => .error (.fieldError .hour)
    | some h =>
      match parseField t2 with
      | none => .error (.fieldError .day)
      | some d =>
        match parseField t3 with
        | none => .error (.fieldError .month)
        | some mo =>
          match parseField t4 with
          | none => .error (.fieldError .dayOfWeek)
          | some dw => .ok ⟨m, h, d, mo, dw, goJoin [' '] rest⟩

/-- `Parse` of `cron.go`: split on whitespace runs, require at least 5
tokens, parse the first five as the time fields in order, and join the
rest with single spaces as the task. -/
def Parse (expression : List Char) : Except ParseErr Job :=
  match goFields expression with
  | t0 :: t1 :: t2 :: t3 :: t4 :: rest => parseJobFields t0 t1 t2 t3 t4 rest
  | parts => .error (.tooFewFields 6 parts.length)

/-- `Job.String` of `cron.go`: the five field renderings and the task,
space-separated, then `strings.TrimSpace`.  `none` when a field
rendering panics. -/
def Job.string (j : Job) : Option (List Char) := do
  let m ← j.minute.string
  let h ← j.hour.string
  let d ← j.day.string
  let mo ← j.month.string
  let dw ← j.dayOfWeek.string
  some (goTrimSpace
    (m ++ ' ' :: (h ++ ' ' :: (d ++ ' ' :: (mo ++ ' ' :: (dw ++ ' ' :: j.task))))))

/-- `Job.Check` of `cron.go`, over the five integers the source extracts
from its `time.Time` argument (minute, hour, day, month, weekday). -/
def Job.Check (job : Job) (minute hour day month dayOfWeek : Int) : Bool :=
  job.minute.check minute &&
  job.hour.check hour &&
  job.day.check day &&
  job.month.check month &&
  job.dayOfWeek.check dayOfWeek

/-- The per-kind value-count invariant from the specification's table
(`Exact`: 1, `Every`: 0, `Multiple`: ≥ 1, `Range`: 2, `Step`: 1,
`Any`: 0). -/
def kindInvariant (f : Field) : Prop :=
  match f.type with
  | .Exact => f.values.length = 1
  | .Every => f.values.length = 0
  | .Multiple => 1 ≤ f.values.length
  | .Range => f.values.length = 2
  | .Step => f.values.length = 1
  | .Any => f.values.length = 0

instance (f : Field) : Decidable (kindInvariant f) := by
  unfold kindInvariant
  cases f.type <;> infer_instance

instance {ε α : Type} [DecidableEq ε] [DecidableEq α] : DecidableEq (Except ε α)
  | .ok a, .ok b =>
    if h : a = b then .isTrue (congrArg Except.ok h)
    else .isFalse (fun he => h (Except.ok.inj he))
  | .error a, .error b =>
    if h : a = b then .isTrue (congrArg Except.error h)
    else .isFalse (fun he => h (Except.error.inj he))
  | .ok _, .error _ => .isFalse (fun he => Except.noConfusion he)
  | .error _, .ok _ => .isFalse (fun he => Except.noConfusion he)

/-! ### Character facts -/

theorem isDigitCh_toNat {c : Char} (h : isDigitCh c = true) :
    48 ≤ c.toNat ∧ c.toNat ≤ 57 := by
  simpa [isDigitCh] using h

theorem digit_ne {c : Char} (h : isDigitCh c = true) {d : Char}
    (hd : isDigitCh d = false) : c ≠ d := by
  intro he
  rw [he, hd] at h
  exact Bool.noConfusion h

theorem digit_not_space {c : Char} (h : isDigitCh c = true) :
    isGoSpace c = false := by
  have hb := isDigitCh_toNat h
  cases hsp : isGoSpace c with
  | false => rfl
  | true =>
    exfalso
    simp only [isGoSpace, Bool.or_eq_true, decide_eq_true_eq] at hsp
    omega

/-! ### TrimSpace -/

theorem dropWhile_of_head_false {p : Char → Bool} {l : List Char}
    (h : ∀ c ∈ l, p c = false) : l.dropWhile p = l := by
  cases l with
  | nil => rfl
  | cons c rest => simp [List.dropWhile_cons, h c (by simp)]

theorem goTrimSpace_eq_self {l : List Char}
    (h : ∀ c ∈ l, isGoSpace c = false) : goTrimSpace l = l := by
  unfold goTrimSpace
  rw [dropWhile_of_head_false h,
    dropWhile_of_head_false (fun c hc => h c (List.mem_reverse.mp hc)),
    List.reverse_reverse]

/-! ### Fields (whitespace tokenization) -/

theorem goFieldsAux_token {w : List Char} (hw : ∀ c ∈ w, isGoSpace c = false) :
    ∀ rest acc, goFieldsAux (w ++ rest) acc = goFieldsAux rest (w.reverse ++ acc) := by
  induction w with
  | nil => intro rest acc; simp
  | cons c cs ih =>
    intro rest acc
    have hc : isGoSpace c = false := hw c (by simp)
    simp only [List.cons_append, goFieldsAux, hc, Bool.false_eq_true, if_false]
    show goFieldsAux (cs ++ rest) (c :: acc) = goFieldsAux rest ((c :: cs).reverse ++ acc)
    rw [ih (fun d hd => hw d (by simp [hd])) rest (c :: acc)]
    simp

theorem goFieldsAux_space (rest acc : List Char) :
    goFieldsAux (' ' :: rest) acc =
      if acc = [] then goFieldsAux rest [] else acc.reverse :: goFieldsAux rest [] := by
  simp [goFieldsAux, isGoSpace]

theorem goFields_goJoin :
    ∀ (tokens : List (List Char)),
      (∀ w ∈ tokens, w ≠ [] ∧ ∀ c ∈ w, isGoSpace c = false) →
      goFields (goJoin [' '] tokens) = tokens := by
  intro tokens
  induction tokens with
  | nil => intro _; rfl
  | cons w ws ih =>
    intro h
    obtain ⟨hwne, hwsp⟩ := h w (by simp)
    cases ws with
    | nil =>
      show goFieldsAux (goJoin [' '] [w]) [] = [w]
      have : goJoin [' '] [w] = w ++ [] := by simp [goJoin]
      rw [this, goFieldsAux_token hwsp]
      simp [goFieldsAux, hwne]
    | cons x ws' =>
      show goFieldsAux (goJoin [' '] (w :: x :: ws')) [] = w :: x :: ws'
      have hjoin : goJoin [' '] (w :: x :: ws') = w ++ ' ' :: goJoin [' '] (x :: ws') := by
        simp [goJoin]
      rw [hjoin, goFieldsAux_token hwsp, List.append_nil, goFieldsAux_space]
      have hrne : w.reverse ≠ [] := by simpa using hwne
      rw [if_neg hrne, List.reverse_reverse]
      exact congrArg (w :: ·) (ih fun u hu => h u (by simp [hu]))

theorem goFieldsAux_tokens_spec :
    ∀ (s acc : List Char), (∀ c ∈ acc, isGoSpace c = false) →
      ∀ w ∈ goFieldsAux s acc, w ≠ [] ∧ ∀ c ∈ w, isGoSpace c = false := by
  intro s
  induction s with
  | nil =>
    intro acc hacc w hw
    unfold goFieldsAux at hw
    by_cases hne : acc = []
    · simp [hne] at hw
    · rw [if_neg hne] at hw
      simp only [List.mem_singleton] at hw
      subst hw
      exact ⟨by simpa using hne, fun c hc => hacc c (List.mem_reverse.mp hc)⟩
  | cons c rest ih =>
    intro acc hacc w hw
    unfold goFieldsAux at hw
    by_cases hsp : isGoSpace c
    · rw [if_pos hsp] at hw
      by_cases hne : acc = []
      · rw [if_pos hne] at hw
        exact ih [] (by simp) w hw
      · rw [if_neg hne] at hw
        rcases List.mem_cons.mp hw with hw | hw
        · subst hw
          exact ⟨by simpa using hne, fun d hd => hacc d (List.mem_reverse.mp hd)⟩
        · exact ih [] (by simp) w hw
    · rw [if_neg hsp] at hw
      refine ih (c :: acc) ?_ w hw
      intro d hd
      rcases List.mem_cons.mp hd with hd | hd
      · subst hd; exact Bool.eq_false_iff.mpr hsp
      · exact hacc d hd

theorem goFields_tokens {s : List Char} :
    ∀ w ∈ goFields s, w ≠ [] ∧ ∀ c ∈ w, isGoSpace c = false :=
  goFieldsAux_tokens_spec s [] (by simp)

theorem goFieldsAux_allspace {sp : List Char}
    (h : ∀ c ∈ sp, isGoSpace c = true) :
    ∀ acc, goFieldsAux sp acc = if acc = [] then [] else [acc.reverse] := by
  induction sp with
  | nil => intro acc; rfl
  | cons c rest ih =>
    intro acc
    have hc : isGoSpace c = true := h c (by simp)
    have hrest : ∀ d ∈ rest, isGoSpace d = true := fun d hd => h d (by simp [hd])
    simp only [goFieldsAux, hc, if_true]
    have h0 : goFieldsAux rest [] = [] := by simpa using ih hrest []
    by_cases hne : acc = [] <;> simp [hne, h0]

theorem goFieldsAux_append_spaces {sp : List Char}
    (h : ∀ c ∈ sp, isGoSpace c = true) :
    ∀ (l acc : List Char), goFieldsAux (l ++ sp) acc = goFieldsAux l acc := by
  intro l
  induction l with
  | nil =>
    intro acc
    rw [List.nil_append, goFieldsAux_allspace h]
    rfl
  | cons c rest ih =>
    intro acc
    simp only [List.cons_append, goFieldsAux]
    by_cases hsp : isGoSpace c <;> by_cases hne : acc = [] <;>
      simp [hsp, hne, ih]

theorem goFields_dropWhile (s : List Char) :
    goFields (s.dropWhile isGoSpace) = goFields s := by
  induction s with
  | nil => rfl
  | cons c rest ih =>
    by_cases hsp : isGoSpace c
    · rw [List.dropWhile_cons_of_pos hsp]
      rw [ih]
      show goFields rest = goFieldsAux (c :: rest) []
      simp [goFieldsAux, hsp, goFields]
    · rw [List.dropWhile_cons_of_neg hsp]

theorem goFields_goTrimSpace (s : List Char) :
    goFields (goTrimSpace s) = goFields s := by
  unfold goTrimSpace
  have hsplit : s.dropWhile isGoSpace =
      ((s.dropWhile isGoSpace).reverse.dropWhile isGoSpace).reverse ++
        ((s.dropWhile isGoSpace).reverse.takeWhile isGoSpace).reverse := by
    conv_lhs => rw [← List.reverse_reverse (s.dropWhile isGoSpace)]
    rw [← List.reverse_append, List.takeWhile_append_dropWhile]
  have hsp : ∀ c ∈ ((s.dropWhile isGoSpace).reverse.takeWhile isGoSpace).reverse,
      isGoSpace c = true := by
    intro c hc
    exact List.mem_takeWhile_imp (List.mem_reverse.mp hc)
  calc goFields ((s.dropWhile isGoSpace).reverse.dropWhile isGoSpace).reverse
      = goFields (s.dropWhile isGoSpace) := by
        conv_rhs => rw [hsplit]
        exact (goFieldsAux_append_spaces hsp _ []).symm
    _ = goFields s := goFields_dropWhile s

/-! ### Split and Join -/

theorem goSplit_nil (sep : Char) : goSplit sep [] = [[]] := rfl

theorem goSplit_cons (sep c : Char) (rest : List Char) :
    goSplit sep (c :: rest) =
      if c = sep then [] :: goSplit sep rest
      else
        match goSplit sep rest with
        | t :: ts => (c :: t) :: ts
        | [] => [[c]] := rfl

theorem goSplit_ne_nil (sep : Char) : ∀ s, goSplit sep s ≠ [] := by
  intro s
  cases s with
  | nil => simp [goSplit_nil]
  | cons c rest =>
    rw [goSplit_cons]
    by_cases hc : c = sep
    · simp [hc]
    · rw [if_neg hc]
      split <;> simp_all

theorem goSplit_sepFree {sep : Char} :
    ∀ {w : List Char}, sep ∉ w → goSplit sep w = [w] := by
  intro w
  induction w with
  | nil => intro _; rfl
  | cons c rest ih =>
    intro h
    have hc : ¬c = sep := fun he => h (by simp [he])
    have hrest : sep ∉ rest := fun hm => h (by simp [hm])
    rw [goSplit_cons, if_neg hc, ih hrest]

theorem goSplit_append {sep : Char} :
    ∀ {w rest : List Char}, sep ∉ w →
      goSplit sep (w ++ sep :: rest) = w :: goSplit sep rest := by
  intro w
  induction w with
  | nil => intro rest _; simp [goSplit_cons]
  | cons c w' ih =>
    intro rest h
    have hc : ¬c = sep := fun he => h (by simp [he])
    have hw' : sep ∉ w' := fun hm => h (by simp [hm])
    simp only [List.cons_append]
    rw [goSplit_cons, if_neg hc, ih hw']

theorem goSplit_goJoin {sep : Char} :
    ∀ {ws : List (List Char)}, ws ≠ [] → (∀ w ∈ ws, sep ∉ w) →
      goSplit sep (goJoin [sep] ws) = ws := by
  intro ws
  induction ws with
  | nil => intro h _; exact absurd rfl h
  | cons w ws' ih =>
    intro _ h
    cases ws' with
    | nil => simpa [goJoin] using goSplit_sepFree (h w (by simp))
    | cons x ws'' =>
      have hjoin : goJoin [sep] (w :: x :: ws'') = w ++ sep :: goJoin [sep] (x :: ws'') := by
        simp [goJoin]
      rw [hjoin, goSplit_append (h w (by simp)),
        ih (by simp) fun u hu => h u (by simp [hu])]

theorem goSplit_parts_sepFree {sep : Char} :
    ∀ {s p : List Char}, p ∈ goSplit sep s → sep ∉ p := by
  intro s
  induction s with
  | nil =>
    intro p hp
    simp only [goSplit_nil, List.mem_singleton] at hp
    subst hp; simp
  | cons c rest ih =>
    intro p hp
    rw [goSplit_cons] at hp
    by_cases hc : c = sep
    · rw [if_pos hc] at hp
      rcases List.mem_cons.mp hp with hp | hp
      · subst hp; simp
      · exact ih hp
    · rw [if_neg hc] at hp
      rcases hsplit : goSplit sep rest with _ | ⟨t, ts⟩
      · exact absurd hsplit (goSplit_ne_nil sep rest)
      · rw [hsplit] at hp
        rcases List.mem_cons.mp hp with hp | hp
        · subst hp
          intro hm
          rcases List.mem_cons.mp hm with hm | hm
          · exact hc hm.symm
          · exact ih (hsplit ▸ List.mem_cons_self t ts) hm
        · exact ih (hsplit ▸ List.mem_cons.mpr (Or.inr hp))

theorem goSplit_length_ge_two {sep : Char} :
    ∀ {s : List Char}, sep ∈ s → 2 ≤ (goSplit sep s).length := by
  intro s
  induction s with
  | nil => intro h; simp at h
  | cons c rest ih =>
    intro h
    rw [goSplit_cons]
    by_cases hc : c = sep
    · rw [if_pos hc]
      have := goSplit_ne_nil sep rest
      have : 1 ≤ (goSplit sep rest).length := by
        cases hs : goSplit sep rest with
        | nil => exact absurd hs (goSplit_ne_nil sep rest)
        | cons t ts => simp
      simpa using this
    · rw [if_neg hc]
      have hrest : sep ∈ rest := by
        rcases List.mem_cons.mp h with h | h
        · exact absurd h.symm hc
        · exact h
      rcases hsplit : goSplit sep rest with _ | ⟨t, ts⟩
      · exact absurd hsplit (goSplit_ne_nil sep rest)
      · have := ih hrest
        rw [hsplit] at this
        simpa using this

theorem mem_goJoin {sep : List Char} :
    ∀ {ws : List (List Char)} {c : Char}, c ∈ goJoin sep ws →
      c ∈ sep ∨ ∃ w ∈ ws, c ∈ w := by
  intro ws
  induction ws with
  | nil => intro c hc; simp [goJoin] at hc
  | cons w ws' ih =>
    intro c hc
    cases ws' with
    | nil => exact Or.inr ⟨w, by simp, by simpa [goJoin] using hc⟩
    | cons x ws'' =>
      have hjoin : goJoin sep (w :: x :: ws'') = w ++ sep ++ goJoin sep (x :: ws'') := by
        simp [goJoin]
      rw [hjoin] at hc
      rcases List.mem_append.mp hc with hc | hc
      · rcases List.mem_append.mp hc with hc | hc
        · exact Or.inr ⟨w, by simp, hc⟩
        · exact Or.inl hc
      · rcases ih hc with hc | ⟨u, hu, hcu⟩
        · exact Or.inl hc
        · exact Or.inr ⟨u, by simp [hu], hcu⟩

theorem goJoin_cons_ne_nil {sep : List Char} {w : List Char}
    (hw : w ≠ []) (ws : List (List Char)) : goJoin sep (w :: ws) ≠ [] := by
  cases ws with
  | nil => simpa [goJoin] using hw
  | cons x ws' =>
    have : goJoin sep (w :: x :: ws') = w ++ (sep ++ goJoin sep (x :: ws')) := by
      simp [goJoin]
    rw [this]
    simp [hw]

theorem sep_mem_goJoin {sep : Char} (w x : List Char) (ws : List (List Char)) :
    sep ∈ goJoin [sep] (w :: x :: ws) := by
  have : goJoin [sep] (w :: x :: ws) = w ++ [sep] ++ goJoin [sep] (x :: ws) := by
    simp [goJoin]
  rw [this]
  simp

/-! ### Decimal printing and parsing -/

theorem dchar_digit (d : Nat) : isDigitCh (dchar d) = true := by
  unfold dchar
  split <;> decide

theorem digVal_dchar : ∀ d, d < 10 → digVal (dchar d) = d := by decide

theorem parseDigitsAux_of_digits {l : List Char}
    (h : ∀ c ∈ l, isDigitCh c = true) :
    ∀ a, parseDigitsAux l a = some (l.foldl digStep a) := by
  induction l with
  | nil => intro a; rfl
  | cons c rest ih =>
    intro a
    have hc : isDigitCh c = true := h c (by simp)
    simp only [parseDigitsAux, hc, if_true, List.foldl_cons]
    exact ih (fun d hd => h d (by simp [hd])) _

theorem natDigitsFuel_fuel_irrel :
    ∀ (n fuel₁ fuel₂ : Nat) (acc : List Char), n ≤ fuel₁ → n ≤ fuel₂ →
      natDigitsFuel fuel₁ n acc = natDigitsFuel fuel₂ n acc := by
  intro n
  induction n using Nat.strong_induction_on with
  | _ n ih =>
    intro fuel₁ fuel₂ acc h1 h2
    by_cases hn : n = 0
    · subst hn
      cases fuel₁ <;> cases fuel₂ <;> simp [natDigitsFuel]
    · obtain ⟨f₁, rfl⟩ : ∃ f, fuel₁ = f + 1 := ⟨fuel₁ - 1, by omega⟩
      obtain ⟨f₂, rfl⟩ : ∃ f, fuel₂ = f + 1 := ⟨fuel₂ - 1, by omega⟩
      simp only [natDigitsFuel, hn, if_false]
      exact ih (n / 10) (by omega) f₁ f₂ _ (by omega) (by omega)

theorem natDigitsFuel_acc :
    ∀ (n fuel : Nat) (acc : List Char), n ≤ fuel →
      natDigitsFuel fuel n acc = natDigitsFuel fuel n [] ++ acc := by
  intro n
  induction n using Nat.strong_induction_on with
  | _ n ih =>
    intro fuel acc h
    by_cases hn : n = 0
    · subst hn
      cases fuel <;> simp [natDigitsFuel]
    · obtain ⟨f, rfl⟩ : ∃ f, fuel = f + 1 := ⟨fuel - 1, by omega⟩
      simp only [natDigitsFuel, hn, if_false]
      rw [ih (n / 10) (by omega) f _ (by omega),
        ih (n / 10) (by omega) f [dchar (n % 10)] (by omega)]
      simp

theorem natDigitsFuel_digits :
    ∀ (n fuel : Nat) (acc : List Char), n ≤ fuel →
      (∀ c ∈ acc, isDigitCh c = true) →
      ∀ c ∈ natDigitsFuel fuel n acc, isDigitCh c = true := by
  intro n
  induction n using Nat.strong_induction_on with
  | _ n ih =>
    intro fuel acc h hacc c hc
    by_cases hn : n = 0
    · subst hn
      cases fuel <;> exact hacc c (by simpa [natDigitsFuel] using hc)
    · obtain ⟨f, rfl⟩ : ∃ f, fuel = f + 1 := ⟨fuel - 1, by omega⟩
      simp only [natDigitsFuel, hn, if_false] at hc
      refine ih (n / 10) (by omega) f _ (by omega) ?_ c hc
      intro d hd
      rcases List.mem_cons.mp hd with hd | hd
      · subst hd; exact dchar_digit _
      · exact hacc d hd

theorem natDigitsFuel_head :
    ∀ (n fuel : Nat), n ≠ 0 → n ≤ fuel →
      ∃ c cs, natDigitsFuel fuel n [] = c :: cs := by
  intro n
  induction n using Nat.strong_induction_on with
  | _ n ih =>
    intro fuel hn h
    obtain ⟨f, rfl⟩ : ∃ f, fuel = f + 1 := ⟨fuel - 1, by omega⟩
    simp only [natDigitsFuel, hn, if_false]
    by_cases h10 : n / 10 = 0
    · rw [h10]
      cases f <;> exact ⟨dchar (n % 10), [], rfl⟩
    · obtain ⟨c, cs, hc⟩ := ih (n / 10) (by omega) f h10 (by omega)
      rw [natDigitsFuel_acc (n / 10) f _ (by omega), hc]
      exact ⟨c, cs ++ [dchar (n % 10)], rfl⟩

theorem natDigitsFuel_foldl :
    ∀ (n fuel : Nat) (a : Nat), n ≤ fuel →
      (natDigitsFuel fuel n []).foldl digStep a =
        a * 10 ^ (natDigitsFuel fuel n []).length + n := by
  intro n
  induction n using Nat.strong_induction_on with
  | _ n ih =>
    intro fuel a h
    by_cases hn : n = 0
    · subst hn
      cases fuel <;> simp [natDigitsFuel]
    · obtain ⟨f, rfl⟩ : ∃ f, fuel = f + 1 := ⟨fuel - 1, by omega⟩
      simp only [natDigitsFuel, hn, if_false]
      rw [natDigitsFuel_acc (n / 10) f _ (by omega)]
      rw [List.foldl_append, List.length_append]
      rw [ih (n / 10) (by omega) f a (by omega)]
      simp only [List.foldl_cons, List.foldl_nil, List.length_cons, List.length_nil]
      unfold digStep
      rw [digVal_dchar (n % 10) (by omega)]
      have hpow : 10 ^ ((natDigitsFuel f (n / 10) []).length + (0 + 1)) =
          10 ^ (natDigitsFuel f (n / 10) []).length * 10 := by
        rw [Nat.zero_add, Nat.pow_succ]
      rw [hpow]
      have : n % 10 + 10 * (n / 10) = n := Nat.mod_add_div n 10
      ring_nf
      omega

theorem natDigits_digits {n : Nat} : ∀ c ∈ natDigits n, isDigitCh c = true := by
  unfold natDigits
  by_cases hn : n = 0
  · simp only [hn, if_true]
    intro c hc
    simp only [List.mem_singleton] at hc
    subst hc; decide
  · rw [if_neg hn]
    exact natDigitsFuel_digits n n [] le_rfl (by simp)

theorem natDigits_head (n : Nat) :
    ∃ c cs, natDigits n = c :: cs ∧ isDigitCh c = true := by
  unfold natDigits
  by_cases hn : n = 0
  · exact ⟨'0', [], by simp [hn], by decide⟩
  · rw [if_neg hn]
    obtain ⟨c, cs, hc⟩ := natDigitsFuel_head n n hn le_rfl
    refine ⟨c, cs, hc, ?_⟩
    exact natDigitsFuel_digits n n [] le_rfl (by simp) c (by simp [hc])

theorem parseDigits_natDigits (n : Nat) : parseDigits (natDigits n) = some n := by
  obtain ⟨c, cs, hshape, _⟩ := natDigits_head n
  rw [hshape]
  show parseDigitsAux (c :: cs) 0 = some n
  rw [← hshape, parseDigitsAux_of_digits natDigits_digits 0]
  unfold natDigits
  by_cases hn : n = 0
  · simp [hn, digStep, digVal]
  · rw [if_neg hn, natDigitsFuel_foldl n n 0 le_rfl]
    simp

/-! ### Atoi facts -/

theorem goAtoi_bounds {s : List Char} {v : Int} (h : goAtoi s = some v) :
    -(2 ^ 63) ≤ v ∧ v ≤ 2 ^ 63 - 1 := by
  unfold goAtoi at h
  split at h
  · exact absurd h (by simp)
  · split at h
    · split at h
      · split at h
        · rename_i n _ hle
          have := Option.some.inj h
          constructor <;> omega
        · exact absurd h (by simp)
      · exact absurd h (by simp)
    · split at h
      · split at h
        · split at h
          · rename_i n _ hle
            have := Option.some.inj h
            have hn : (0 : Int) ≤ (n : Int) := Int.natCast_nonneg n
            constructor <;> omega
          · exact absurd h (by simp)
        · exact absurd h (by simp)
      · split at h
        · split at h
          · rename_i n _ hle
            have := Option.some.inj h
            have hn : (0 : Int) ≤ (n : Int) := Int.natCast_nonneg n
            constructor <;> omega
          · exact absurd h (by simp)
        · exact absurd h (by simp)

theorem goAtoi_nonneg_of_no_dash {s : List Char} {v : Int}
    (h : goAtoi s = some v) (hd : '-' ∉ s) : 0 ≤ v := by
  unfold goAtoi at h
  split at h
  · exact absurd h (by simp)
  · rename_i c rest
    have hc : ¬c = '-' := fun he => hd (by simp [he])
    rw [if_neg hc] at h
    split at h
    · split at h
      · split at h
        · rename_i n _ _
          have := Option.some.inj h
          have hn : (0 : Int) ≤ (n : Int) := Int.natCast_nonneg n
          omega
        · exact absurd h (by simp)
      · exact absurd h (by simp)
    · split at h
      · split at h
        · rename_i n _ _
          have := Option.some.inj h
          have hn : (0 : Int) ≤ (n : Int) := Int.natCast_nonneg n
          omega
        · exact absurd h (by simp)
      · exact absurd h (by simp)

theorem goAtoi_dash (rest : List Char) :
    goAtoi ('-' :: rest) =
      match parseDigits rest with
      | some n => if (n : Int) ≤ 2 ^ 63 then some (-(n : Int)) else none
      | none => none := rfl

theorem goAtoi_cons_of_digit {c : Char} (hdig : isDigitCh c = true)
    (rest : List Char) :
    goAtoi (c :: rest) =
      match parseDigits (c :: rest) with
      | some n => if (n : Int) ≤ 2 ^ 63 - 1 then some (n : Int) else none
      | none => none := by
  simp only [goAtoi]
  rw [if_neg (digit_ne hdig (by decide)), if_neg (digit_ne hdig (by decide))]

theorem goAtoi_goItoa {v : Int} (hlo : -(2 ^ 63) ≤ v) (hhi : v ≤ 2 ^ 63 - 1) :
    goAtoi (goItoa v) = some v := by
  unfold goItoa
  by_cases hneg : v < 0
  · rw [if_pos hneg, goAtoi_dash, parseDigits_natDigits]
    have hle : (v.natAbs : Int) ≤ 2 ^ 63 := by omega
    show (if ((v.natAbs : Int) ≤ 2 ^ 63) then some (-(v.natAbs : Int)) else none) =
      some v
    rw [if_pos hle]
    congr 1
    omega
  · rw [if_neg hneg]
    obtain ⟨c, cs, hshape, hdig⟩ := natDigits_head v.toNat
    rw [hshape, goAtoi_cons_of_digit hdig, ← hshape, parseDigits_natDigits]
    show (if ((v.toNat : Int) ≤ 2 ^ 63 - 1) then some ((v.toNat : Int)) else none) =
      some v
    have hcast : (v.toNat : Int) = v := Int.toNat_of_nonneg (by omega)
    rw [hcast, if_pos hhi]

/-! ### Itoa character facts -/

theorem goItoa_chars {v : Int} :
    ∀ c ∈ goItoa v, c = '-' ∨ isDigitCh c = true := by
  unfold goItoa
  by_cases hneg : v < 0
  · rw [if_pos hneg]
    intro c hc
    rcases List.mem_cons.mp hc with hc | hc
    · exact Or.inl hc
    · exact Or.inr (natDigits_digits c hc)
  · rw [if_neg hneg]
    intro c hc
    exact Or.inr (natDigits_digits c hc)

theorem goItoa_no_space {v : Int} : ∀ c ∈ goItoa v, isGoSpace c = false := by
  intro c hc
  rcases goItoa_chars c hc with hc' | hc'
  · subst hc'; decide
  · exact digit_not_space hc'

theorem goItoa_no_comma {v : Int} : ∀ c ∈ goItoa v, c ≠ ',' := by
  intro c hc
  rcases goItoa_chars c hc with hc' | hc'
  · subst hc'; decide
  · exact digit_ne hc' (by decide)

theorem goItoa_nonneg_digits {v : Int} (h : 0 ≤ v) :
    ∀ c ∈ goItoa v, isDigitCh c = true := by
  unfold goItoa
  rw [if_neg (by omega : ¬v < 0)]
  exact natDigits_digits

theorem goItoa_head (v : Int) :
    ∃ c cs, goItoa v = c :: cs ∧ (c = '-' ∨ isDigitCh c = true) := by
  unfold goItoa
  by_cases hneg : v < 0
  · exact ⟨'-', natDigits v.natAbs, by rw [if_pos hneg], Or.inl rfl⟩
  · obtain ⟨c, cs, hshape, hdig⟩ := natDigits_head v.toNat
    exact ⟨c, cs, by rw [if_neg hneg, hshape], Or.inr hdig⟩

theorem goItoa_ne_nil (v : Int) : goItoa v ≠ [] := by
  obtain ⟨c, cs, hshape, _⟩ := goItoa_head v
  rw [hshape]
  simp

/-! ### atoiAll facts -/

theorem atoiAll_cons (p : List Char) (ps : List (List Char)) :
    atoiAll (p :: ps) =
      (goAtoi p).bind fun v => (atoiAll ps).bind fun vs => some (v :: vs) := rfl

theorem atoiAll_length :
    ∀ {ps : List (List Char)} {vs : List Int},
      atoiAll ps = some vs → vs.length = ps.length := by
  intro ps
  induction ps with
  | nil =>
    intro vs h
    have : ([] : List Int) = vs := Option.some.inj h
    subst this; rfl
  | cons p ps' ih =>
    intro vs h
    rw [atoiAll_cons] at h
    rcases Option.bind_eq_some.mp h with ⟨v, hv, h2⟩
    rcases Option.bind_eq_some.mp h2 with ⟨ws, hws, h3⟩
    have : v :: ws = vs := Option.some.inj h3
    subst this
    simp [ih hws]

theorem atoiAll_bounds :
    ∀ {ps : List (List Char)} {vs : List Int}, atoiAll ps = some vs →
      ∀ v ∈ vs, -(2 ^ 63) ≤ v ∧ v ≤ 2 ^ 63 - 1 := by
  intro ps
  induction ps with
  | nil =>
    intro vs h v hv
    have : ([] : List Int) = vs := Option.some.inj h
    subst this
    simp at hv
  | cons p ps' ih =>
    intro vs h v hv
    rw [atoiAll_cons] at h
    rcases Option.bind_eq_some.mp h with ⟨w, hw, h2⟩
    rcases Option.bind_eq_some.mp h2 with ⟨ws, hws, h3⟩
    have : w :: ws = vs := Option.some.inj h3
    subst this
    rcases List.mem_cons.mp hv with hv | hv
    · subst hv; exact goAtoi_bounds hw
    · exact ih hws v hv

theorem atoiAll_map_goItoa :
    ∀ {vs : List Int}, (∀ v ∈ vs, -(2 ^ 63) ≤ v ∧ v ≤ 2 ^ 63 - 1) →
      atoiAll (vs.map goItoa) = some vs := by
  intro vs
  induction vs with
  | nil => intro _; rfl
  | cons v vs' ih =>
    intro h
    obtain ⟨h1, h2⟩ := h v (by simp)
    rw [List.map_cons, atoiAll_cons, goAtoi_goItoa h1 h2,
      ih fun u hu => h u (by simp [hu])]
    rfl

/-! ### parseField branch evaluations -/

theorem parseFieldTrimmed_step (rest : List Char) :
    parseFieldTrimmed ('*' :: '/' :: rest) =
      (goAtoi rest).map fun v => ⟨.Step, [v]⟩ := by
  unfold parseFieldTrimmed
  rw [if_neg (by simp)]
  rfl

theorem parseFieldTrimmed_comma {s : List Char}
    (hns : ∀ r, s ≠ '*' :: '/' :: r) (hc : ',' ∈ s) :
    parseFieldTrimmed s =
      (atoiAll (goSplit ',' s)).map fun vs => ⟨.Multiple, vs⟩ := by
  have hstar : s ≠ ['*'] := by
    intro he
    rw [he] at hc
    exact absurd hc (by decide)
  unfold parseFieldTrimmed
  rw [if_neg hstar]
  split
  · rename_i rest
    exact absurd rfl (hns rest)
  · rw [if_pos hc]

theorem parseFieldTrimmed_dash {s : List Char}
    (hns : ∀ r, s ≠ '*' :: '/' :: r) (hc : ',' ∉ s) (hd : '-' ∈ s) :
    parseFieldTrimmed s =
      match goSplit '-' s with
      | [a, b] =>
        match goAtoi a, goAtoi b with
        | some lo, some hi => some ⟨.Range, [lo, hi]⟩
        | _, _ => none
      | _ => none := by
  have hstar : s ≠ ['*'] := by
    intro he
    rw [he] at hd
    exact absurd hd (by decide)
  unfold parseFieldTrimmed
  rw [if_neg hstar]
  split
  · rename_i rest
    exact absurd rfl (hns rest)
  · rw [if_neg hc, if_pos hd]

theorem parseFieldTrimmed_exact {s : List Char}
    (hns : ∀ r, s ≠ '*' :: '/' :: r) (hstar : s ≠ ['*']) (hq : s ≠ ['?'])
    (hc : ',' ∉ s) (hd : '-' ∉ s) :
    parseFieldTrimmed s = (goAtoi s).map fun v => ⟨.Exact, [v]⟩ := by
  unfold parseFieldTrimmed
  rw [if_neg hstar]
  split
  · rename_i rest
    exact absurd rfl (hns rest)
  · rw [if_neg hc, if_neg hd, if_neg hq]

/-! ### parseField inversion -/

theorem parseFieldTrimmed_inv {s : List Char} {f : Field}
    (h : parseFieldTrimmed s = some f) :
    f = ⟨.Every, []⟩ ∨
    (∃ v, f = ⟨.Step, [v]⟩ ∧ -(2 ^ 63) ≤ v ∧ v ≤ 2 ^ 63 - 1) ∨
    (∃ vs, f = ⟨.Multiple, vs⟩ ∧ 2 ≤ vs.length ∧
      ∀ v ∈ vs, -(2 ^ 63) ≤ v ∧ v ≤ 2 ^ 63 - 1) ∨
    (∃ lo hi, f = ⟨.Range, [lo, hi]⟩ ∧
      0 ≤ lo ∧ lo ≤ 2 ^ 63 - 1 ∧ 0 ≤ hi ∧ hi ≤ 2 ^ 63 - 1) ∨
    f = ⟨.Any, []⟩ ∨
    (∃ v, f = ⟨.Exact, [v]⟩ ∧ 0 ≤ v ∧ v ≤ 2 ^ 63 - 1) := by
  unfold parseFieldTrimmed at h
  split at h
  · exact Or.inl (Option.some.inj h).symm
  · split at h
    · rcases Option.map_eq_some'.mp h with ⟨v, hv, rfl⟩
      exact Or.inr (Or.inl ⟨v, rfl, goAtoi_bounds hv⟩)
    · rename_i s' hnstar hmatch
      split at h
      · rename_i hcomma
        rcases Option.map_eq_some'.mp h with ⟨vs, hvs, rfl⟩
        refine Or.inr (Or.inr (Or.inl ⟨vs, rfl, ?_, atoiAll_bounds hvs⟩))
        rw [atoiAll_length hvs]
        exact goSplit_length_ge_two hcomma
      · rename_i hcomma
        split at h
        · rename_i hdash
          split at h
          · rename_i a b heq
            split at h
            · rename_i lo hi hlo hhi
              have hf := (Option.some.inj h).symm
              have ha : '-' ∉ a :=
                goSplit_parts_sepFree (p := a) (by rw [heq]; simp)
              have hb : '-' ∉ b :=
                goSplit_parts_sepFree (p := b) (by rw [heq]; simp)
              have hba := goAtoi_bounds hlo
              have hbb := goAtoi_bounds hhi
              exact Or.inr (Or.inr (Or.inr (Or.inl ⟨lo, hi, hf,
                goAtoi_nonneg_of_no_dash hlo ha, hba.2,
                goAtoi_nonneg_of_no_dash hhi hb, hbb.2⟩)))
            · exact absurd h (by simp)
          · exact absurd h (by simp)
        · rename_i hdash
          split at h
          · exact Or.inr (Or.inr (Or.inr (Or.inr
              (Or.inl (Option.some.inj h).symm))))
          · rcases Option.map_eq_some'.mp h with ⟨v, hv, rfl⟩
            exact Or.inr (Or.inr (Or.inr (Or.inr (Or.inr ⟨v, rfl,
              goAtoi_nonneg_of_no_dash hv hdash, (goAtoi_bounds hv).2⟩))))

/-! ### Re-parsing rendered fields -/

theorem digit_mem_not_special {r : List Char}
    (hdig : ∀ c ∈ r, isDigitCh c = true) :
    (∀ q, r ≠ '*' :: '/' :: q) ∧ r ≠ ['*'] ∧ r ≠ ['?'] ∧ ',' ∉ r ∧ '-' ∉ r := by
  refine ⟨?_, ?_, ?_, ?_, ?_⟩
  · intro q he
    have : isDigitCh '*' = true := hdig '*' (by rw [he]; simp)
    exact absurd this (by decide)
  · intro he
    have : isDigitCh '*' = true := hdig '*' (by rw [he]; simp)
    exact absurd this (by decide)
  · intro he
    have : isDigitCh '?' = true := hdig '?' (by rw [he]; simp)
    exact absurd this (by decide)
  · intro hm
    exact absurd (hdig ',' hm) (by decide)
  · intro hm
    exact absurd (hdig '-' hm) (by decide)

theorem parseField_itoa_exact {v : Int} (h0 : 0 ≤ v) (hhi : v ≤ 2 ^ 63 - 1) :
    parseField (goItoa v) = some ⟨.Exact, [v]⟩ := by
  have hdig := goItoa_nonneg_digits h0
  obtain ⟨hns, hstar, hq, hc, hd⟩ := digit_mem_not_special hdig
  unfold parseField
  rw [goTrimSpace_eq_self fun c hc => digit_not_space (hdig c hc)]
  rw [parseFieldTrimmed_exact hns hstar hq hc hd]
  rw [goAtoi_goItoa (by omega) hhi]
  rfl

theorem parseField_step_render {v : Int} (hlo : -(2 ^ 63) ≤ v)
    (hhi : v ≤ 2 ^ 63 - 1) :
    parseField ('*' :: '/' :: goItoa v) = some ⟨.Step, [v]⟩ := by
  unfold parseField
  have hsp : ∀ c ∈ '*' :: '/' :: goItoa v, isGoSpace c = false := by
    intro c hc
    rcases List.mem_cons.mp hc with hc | hc
    · subst hc; decide
    · rcases List.mem_cons.mp hc with hc | hc
      · subst hc; decide
      · exact goItoa_no_space c hc
  rw [goTrimSpace_eq_self hsp, parseFieldTrimmed_step, goAtoi_goItoa hlo hhi]
  rfl

theorem parseField_range_render {lo hi : Int}
    (h1 : 0 ≤ lo) (h2 : lo ≤ 2 ^ 63 - 1) (h3 : 0 ≤ hi) (h4 : hi ≤ 2 ^ 63 - 1) :
    parseField (goItoa lo ++ '-' :: goItoa hi) = some ⟨.Range, [lo, hi]⟩ := by
  have hdlo := goItoa_nonneg_digits h1
  have hdhi := goItoa_nonneg_digits h3
  have hmem : ∀ c ∈ goItoa lo ++ '-' :: goItoa hi,
      c = '-' ∨ isDigitCh c = true := by
    intro c hc
    rcases List.mem_append.mp hc with hc | hc
    · exact Or.inr (hdlo c hc)
    · rcases List.mem_cons.mp hc with hc | hc
      · exact Or.inl hc
      · exact Or.inr (hdhi c hc)
  have hsp : ∀ c ∈ goItoa lo ++ '-' :: goItoa hi, isGoSpace c = false := by
    intro c hc
    rcases hmem c hc with hc' | hc'
    · subst hc'; decide
    · exact digit_not_space hc'
  obtain ⟨c, cs, hshape, hcdig⟩ := natDigits_head lo.toNat
  have hitoa : goItoa lo = c :: cs := by
    unfold goItoa
    rw [if_neg (by omega), hshape]
  have hns : ∀ q, goItoa lo ++ '-' :: goItoa hi ≠ '*' :: '/' :: q := by
    intro q he
    rw [hitoa] at he
    have : c = '*' := (List.cons.inj he).1
    subst this
    exact absurd hcdig (by decide)
  have hcomma : ',' ∉ goItoa lo ++ '-' :: goItoa hi := by
    intro hm
    rcases hmem ',' hm with hc' | hc'
    · exact absurd hc' (by decide)
    · exact absurd hc' (by decide)
  have hdash : '-' ∈ goItoa lo ++ '-' :: goItoa hi := by simp
  unfold parseField
  rw [goTrimSpace_eq_self hsp, parseFieldTrimmed_dash hns hcomma hdash]
  have hlofree : '-' ∉ goItoa lo := fun hm =>
    absurd (hdlo '-' hm) (by decide)
  have hhifree : '-' ∉ goItoa hi := fun hm =>
    absurd (hdhi '-' hm) (by decide)
  rw [goSplit_append hlofree, goSplit_sepFree hhifree]
  show (match goAtoi (goItoa lo), goAtoi (goItoa hi) with
    | some lo, some hi => some (⟨.Range, [lo, hi]⟩ : Field)
    | _, _ => none) = some ⟨.Range, [lo, hi]⟩
  rw [goAtoi_goItoa (by omega) h2, goAtoi_goItoa (by omega) h4]

theorem parseField_multi_render {vs : List Int} (hlen : 2 ≤ vs.length)
    (hb : ∀ v ∈ vs, -(2 ^ 63) ≤ v ∧ v ≤ 2 ^ 63 - 1) :
    parseField (goJoin [','] (vs.map goItoa)) = some ⟨.Multiple, vs⟩ := by
  obtain ⟨v₁, vs₁, rfl⟩ : ∃ v₁ vs₁, vs = v₁ :: vs₁ := by
    cases vs with
    | nil => simp at hlen
    | cons a b => exact ⟨a, b, rfl⟩
  obtain ⟨v₂, vs₂, rfl⟩ : ∃ v₂ vs₂, vs₁ = v₂ :: vs₂ := by
    cases vs₁ with
    | nil => simp at hlen
    | cons a b => exact ⟨a, b, rfl⟩
  have hsp : ∀ c ∈ goJoin [','] ((v₁ :: v₂ :: vs₂).map goItoa),
      isGoSpace c = false := by
    intro c hc
    rcases mem_goJoin hc with hc | ⟨w, hw, hcw⟩
    · simp only [List.mem_singleton] at hc
      subst hc; decide
    · rcases List.mem_map.mp hw with ⟨u, _, rfl⟩
      exact goItoa_no_space c hcw
  have hcomma : ',' ∈ goJoin [','] ((v₁ :: v₂ :: vs₂).map goItoa) := by
    rw [List.map_cons, List.map_cons]
    exact sep_mem_goJoin _ _ _
  have hns : ∀ q, goJoin [','] ((v₁ :: v₂ :: vs₂).map goItoa) ≠ '*' :: '/' :: q := by
    intro q he
    obtain ⟨c, cs, hshape, hck⟩ := goItoa_head v₁
    have hjoin : goJoin [','] ((v₁ :: v₂ :: vs₂).map goItoa) =
        goItoa v₁ ++ [','] ++ goJoin [','] ((v₂ :: vs₂).map goItoa) := by
      simp [goJoin]
    rw [hjoin, hshape] at he
    have : c = '*' := (List.cons.inj he).1
    subst this
    rcases hck with hck | hck
    · exact absurd hck (by decide)
    · exact absurd hck (by decide)
  unfold parseField
  rw [goTrimSpace_eq_self hsp, parseFieldTrimmed_comma hns hcomma]
  rw [goSplit_goJoin (by simp) ?sepfree]
  case sepfree =>
    intro w hw hm
    rcases List.mem_map.mp hw with ⟨u, _, rfl⟩
    exact goItoa_no_comma ',' hm rfl
  rw [atoiAll_map_goItoa hb]
  rfl

/-! ### Rendered-field properties and the per-field round trip -/

theorem Field.string_props {f : Field} {r : List Char}
    (h : Field.string f = some r) :
    r ≠ [] ∧ ∀ c ∈ r, isGoSpace c = false := by
  obtain ⟨ty, vs⟩ := f
  cases ty with
  | Exact =>
    rcases vs with _ | ⟨v, _ | ⟨w, rest⟩⟩
    · exact absurd h (by simp [Field.string])
    · have hr : goItoa v = r := Option.some.inj h
      subst hr
      exact ⟨goItoa_ne_nil v, goItoa_no_space⟩
    · exact absurd h (by simp [Field.string])
  | Every =>
    have hr : ['*'] = r := Option.some.inj h
    subst hr
    refine ⟨by simp, ?_⟩
    intro c hc
    simp only [List.mem_singleton] at hc
    subst hc; decide
  | Multiple =>
    by_cases hvs : vs = []
    · exact absurd h (by simp [Field.string, hvs])
    · have hr : goJoin [','] (vs.map goItoa) = r := by
        have := h
        simp only [Field.string, if_neg hvs] at this
        exact Option.some.inj this
      subst hr
      obtain ⟨v, vs', rfl⟩ : ∃ v vs', vs = v :: vs' := by
        cases vs with
        | nil => exact absurd rfl hvs
        | cons a b => exact ⟨a, b, rfl⟩
      constructor
      · rw [List.map_cons]
        exact goJoin_cons_ne_nil (goItoa_ne_nil v) _
      · intro c hc
        rcases mem_goJoin hc with hc | ⟨w, hw, hcw⟩
        · simp only [List.mem_singleton] at hc
          subst hc; decide
        · rcases List.mem_map.mp hw with ⟨u, _, rfl⟩
          exact goItoa_no_space c hcw
  | Range =>
    rcases vs with _ | ⟨a, _ | ⟨b, _ | ⟨c', rest⟩⟩⟩
    · exact absurd h (by simp [Field.string])
    · exact absurd h (by simp [Field.string])
    · have hr : goItoa a ++ '-' :: goItoa b = r := Option.some.inj h
      subst hr
      constructor
      · simp [goItoa_ne_nil a]
      · intro c hc
        rcases List.mem_append.mp hc with hc | hc
        · exact goItoa_no_space c hc
        · rcases List.mem_cons.mp hc with hc | hc
          · subst hc; decide
          · exact goItoa_no_space c hc
    · exact absurd h (by simp [Field.string])
  | Step =>
    rcases vs with _ | ⟨v, _ | ⟨w, rest⟩⟩
    · exact absurd h (by simp [Field.string])
    · have hr : '*' :: '/' :: goItoa v = r := Option.some.inj h
      subst hr
      refine ⟨by simp, ?_⟩
      intro c hc
      rcases List.mem_cons.mp hc with hc | hc
      · subst hc; decide
      · rcases List.mem_cons.mp hc with hc | hc
        · subst hc; decide
        · exact goItoa_no_space c hc
    · exact absurd h (by simp [Field.string])
  | Any =>
    have hr : ['?'] = r := Option.some.inj h
    subst hr
    refine ⟨by simp, ?_⟩
    intro c hc
    simp only [List.mem_singleton] at hc
    subst hc; decide

theorem parseField_string_roundtrip {t : List Char} {f : Field}
    (h : parseField t = some f) :
    ∃ r, Field.string f = some r ∧ parseField r = some f := by
  rcases parseFieldTrimmed_inv
      (show parseFieldTrimmed (goTrimSpace t) = some f from h) with
    hf | ⟨v, hf, hlo, hhi⟩ | ⟨vs, hf, hlen, hb⟩ |
    ⟨lo, hi, hf, h1, h2, h3, h4⟩ | hf | ⟨v, hf, h0, hhi⟩
  · subst hf
    exact ⟨['*'], rfl, by decide⟩
  · subst hf
    exact ⟨'*' :: '/' :: goItoa v, rfl, parseField_step_render hlo hhi⟩
  · subst hf
    refine ⟨goJoin [','] (vs.map goItoa), ?_, parseField_multi_render hlen hb⟩
    have hvs : vs ≠ [] := by
      intro he
      rw [he] at hlen
      simp at hlen
    simp [Field.string, hvs]
  · subst hf
    exact ⟨goItoa lo ++ '-' :: goItoa hi, rfl,
      parseField_range_render h1 h2 h3 h4⟩
  · subst hf
    exact ⟨['?'], rfl, by decide⟩
  · subst hf
    exact ⟨goItoa v, rfl, parseField_itoa_exact h0 hhi⟩

/-! ### Whole-expression parsing facts -/

theorem Parse_cons {e t0 t1 t2 t3 t4 : List Char} {rest : List (List Char)}
    (heq : goFields e = t0 :: t1 :: t2 :: t3 :: t4 :: rest) :
    Parse e = parseJobFields t0 t1 t2 t3 t4 rest := by
  unfold Parse
  rw [heq]

theorem parseJobFields_ok {t0 t1 t2 t3 t4 : List Char}
    {rest : List (List Char)} {f0 f1 f2 f3 f4 : Field}
    (h0 : parseField t0 = some f0) (h1 : parseField t1 = some f1)
    (h2 : parseField t2 = some f2) (h3 : parseField t3 = some f3)
    (h4 : parseField t4 = some f4) :
    parseJobFields t0 t1 t2 t3 t4 rest =
      .ok ⟨f0, f1, f2, f3, f4, goJoin [' '] rest⟩ := by
  unfold parseJobFields
  rw [h0, h1, h2, h3, h4]

theorem Parse_inv {e : List Char} {j : Job} (h : Parse e = .ok j) :
    ∃ t0 t1 t2 t3 t4 rest,
      goFields e = t0 :: t1 :: t2 :: t3 :: t4 :: rest ∧
      parseField t0 = some j.minute ∧
      parseField t1 = some j.hour ∧
      parseField t2 = some j.day ∧
      parseField t3 = some j.month ∧
      parseField t4 = some j.dayOfWeek ∧
      j.task = goJoin [' '] rest := by
  unfold Parse at h
  split at h
  · rename_i t0 t1 t2 t3 t4 rest heq
    refine ⟨t0, t1, t2, t3, t4, rest, heq, ?_⟩
    unfold parseJobFields at h
    split at h
    · exact absurd h (by simp)
    · rename_i f0 h0
      split at h
      · exact absurd h (by simp)
      · rename_i f1 h1
        split at h
        · exact absurd h (by simp)
        · rename_i f2 h2
          split at h
          · exact absurd h (by simp)
          · rename_i f3 h3
            split at h
            · exact absurd h (by simp)
            · rename_i f4 h4
              have hj := Except.ok.inj h
              subst hj
              exact ⟨h0, h1, h2, h3, h4, rfl⟩
  · exact absurd h (by simp)

theorem goFields_token_cons {w : List Char} (hw : w ≠ [])
    (hsp : ∀ c ∈ w, isGoSpace c = false) (rest : List Char) :
    goFields (w ++ ' ' :: rest) = w :: goFields rest := by
  show goFieldsAux (w ++ ' ' :: rest) [] = w :: goFieldsAux rest []
  rw [goFieldsAux_token hsp, List.append_nil, goFieldsAux_space,
    if_neg (by simpa using hw), List.reverse_reverse]

theorem Parse_string_roundtrip {e : List Char} {j : Job}
    (h : Parse e = .ok j) :
    ∃ s, Job.string j = some s ∧ Parse s = .ok j := by
  obtain ⟨t0, t1, t2, t3, t4, rest, heq, hp0, hp1, hp2, hp3, hp4, htask⟩ :=
    Parse_inv h
  obtain ⟨r0, hs0, hr0⟩ := parseField_string_roundtrip hp0
  obtain ⟨r1, hs1, hr1⟩ := parseField_string_roundtrip hp1
  obtain ⟨r2, hs2, hr2⟩ := parseField_string_roundtrip hp2
  obtain ⟨r3, hs3, hr3⟩ := parseField_string_roundtrip hp3
  obtain ⟨r4, hs4, hr4⟩ := parseField_string_roundtrip hp4
  obtain ⟨hn0, hsp0⟩ := Field.string_props hs0
  obtain ⟨hn1, hsp1⟩ := Field.string_props hs1
  obtain ⟨hn2, hsp2⟩ := Field.string_props hs2
  obtain ⟨hn3, hsp3⟩ := Field.string_props hs3
  obtain ⟨hn4, hsp4⟩ := Field.string_props hs4
  have hrest : ∀ w ∈ rest, w ≠ [] ∧ ∀ c ∈ w, isGoSpace c = false := by
    intro w hw
    exact goFields_tokens (s := e) w (by rw [heq]; simp [hw])
  have hjs : Job.string j = some (goTrimSpace
      (r0 ++ ' ' :: (r1 ++ ' ' :: (r2 ++ ' ' :: (r3 ++ ' ' :: (r4 ++ ' ' :: j.task)))))) := by
    unfold Job.string
    rw [hs0, hs1, hs2, hs3, hs4]
    rfl
  refine ⟨_, hjs, ?_⟩
  have hbody : goFields
      (r0 ++ ' ' :: (r1 ++ ' ' :: (r2 ++ ' ' :: (r3 ++ ' ' :: (r4 ++ ' ' :: goJoin [' '] rest))))) =
      r0 :: r1 :: r2 :: r3 :: r4 :: rest := by
    rw [goFields_token_cons hn0 hsp0, goFields_token_cons hn1 hsp1,
      goFields_token_cons hn2 hsp2, goFields_token_cons hn3 hsp3,
      goFields_token_cons hn4 hsp4, goFields_goJoin rest hrest]
  rw [htask]
  rw [Parse_cons (by rw [goFields_goTrimSpace, hbody])]
  rw [parseJobFields_ok hr0 hr1 hr2 hr3 hr4]
  obtain ⟨jm, jh, jd, jmo, jdw, jt⟩ := j
  simp only at hp0 hp1 hp2 hp3 hp4 htask
  rw [htask]

/-! ### Claim theorems -/

/-- C1: field matching is correct per kind: every `Every` field matches
every integer; `Step{5}` matches 10 but not 11; `Range{1,5}` matches 3
but not 6; `Multiple{3,7,8}` matches 7 but not 4; `Exact{5}` matches 5
but not 6; and `Any{}` matches no integer. -/
theorem claim_C1_match_correct :
    (∀ (vs : List Int) (x : Int), Field.check ⟨.Every, vs⟩ x = true) ∧
    Field.check ⟨.Step, [5]⟩ 10 = true ∧
    Field.check ⟨.Step, [5]⟩ 11 = false ∧
    Field.check ⟨.Range, [1, 5]⟩ 3 = true ∧
    Field.check ⟨.Range, [1, 5]⟩ 6 = false ∧
    Field.check ⟨.Multiple, [3, 7, 8]⟩ 7 = true ∧
    Field.check ⟨.Multiple, [3, 7, 8]⟩ 4 = false ∧
    Field.check ⟨.Exact, [5]⟩ 5 = true ∧
    Field.check ⟨.Exact, [5]⟩ 6 = false ∧
    (∀ x : Int, Field.check ⟨.Any, []⟩ x = false) :=
  ⟨fun _ _ => rfl, by decide, by decide, by decide, by decide, by decide,
    by decide, by decide, by decide, fun _ => rfl⟩

/-- C2: field parsing dispatches on token shape in the source's
first-match-wins order: `"*"` gives `Every`, `"*/5"` gives `Step{5}`,
`"1,2,3"` gives `Multiple{1,2,3}` in textual order, `"1-5"` gives
`Range{1,5}`, `"?"` gives `Any`, `"7"` gives `Exact{7}`; and any trimmed
token that contains a comma and is not `"*"` or `"*/"`-prefixed is handled
by the comma rule (so `"1-2,3"` hits the comma rule and fails on the
segment `"1-2"`, rather than being handled by the dash rule). -/
theorem claim_C2_dispatch :
    parseField ("*".toList) = some ⟨.Every, []⟩ ∧
    parseField ("*/5".toList) = some ⟨.Step, [5]⟩ ∧
    parseField ("1,2,3".toList) = some ⟨.Multiple, [1, 2, 3]⟩ ∧
    parseField ("1-5".toList) = some ⟨.Range, [1, 5]⟩ ∧
    parseField ("?".toList) = some ⟨.Any, []⟩ ∧
    parseField ("7".toList) = some ⟨.Exact, [7]⟩ ∧
    (∀ s : List Char, goTrimSpace s = s → (∀ r, s ≠ '*' :: '/' :: r) →
      ',' ∈ s →
      parseField s = (atoiAll (goSplit ',' s)).map fun vs => ⟨.Multiple, vs⟩) ∧
    parseField ("1-2,3".toList) = none := by
  refine ⟨by decide, by decide, by decide, by decide, by decide, by decide,
    ?_, by decide⟩
  intro s htrim hns hc
  unfold parseField
  rw [htrim]
  exact parseFieldTrimmed_comma hns hc

theorem claim_C2_witness :
    (goTrimSpace ("1-2,3".toList) = ("1-2,3".toList) ∧
      ',' ∈ ("1-2,3".toList)) ∧
    parseField ("1-2,3".toList) =
      (atoiAll (goSplit ',' ("1-2,3".toList))).map fun vs => ⟨.Multiple, vs⟩ :=
  ⟨⟨by decide, by decide⟩,
    claim_C2_dispatch.2.2.2.2.2.2.1 ("1-2,3".toList) (by decide)
      (fun r h => absurd (List.cons.inj h).1 (by decide)) (by decide)⟩

/-- C3: round trip: whenever `Parse` succeeds on an expression, rendering
the resulting `Job` succeeds and re-parsing the rendered text produces a
`Job` deep-equal to the original.  (This is proved for every `Job` in the
range of `Parse`, which subsumes the claim's well-formed single-space
inputs.) -/
theorem claim_C3_roundtrip :
    ∀ (e : List Char) (j : Job), Parse e = .ok j →
      ∃ s, Job.string j = some s ∧ Parse s = .ok j :=
  fun _ _ h => Parse_string_roundtrip h

theorem claim_C3_witness :
    ∃ s, Job.string ⟨⟨.Every, []⟩, ⟨.Step, [5]⟩, ⟨.Multiple, [5, 6]⟩,
        ⟨.Range, [1, 2]⟩, ⟨.Any, []⟩, ("echo hi".toList)⟩ = some s ∧
      Parse s = .ok ⟨⟨.Every, []⟩, ⟨.Step, [5]⟩, ⟨.Multiple, [5, 6]⟩,
        ⟨.Range, [1, 2]⟩, ⟨.Any, []⟩, ("echo hi".toList)⟩ :=
  claim_C3_roundtrip ("* */5 5,6 1-2 ? echo hi".toList) _ (by decide)

/-- C4: the whole-timestamp match is exactly the logical AND of the five
component fields' match predicates on the corresponding integers. -/
theorem claim_C4_check_and (job : Job) (minute hour day month dayOfWeek : Int) :
    Job.Check job minute hour day month dayOfWeek = true ↔
      (job.minute.check minute = true ∧ job.hour.check hour = true ∧
        job.day.check day = true ∧ job.month.check month = true ∧
        job.dayOfWeek.check dayOfWeek = true) := by
  simp [Job.Check, Bool.and_eq_true, and_assoc]

/-- C5: `Parse` splits on runs of whitespace; any input with fewer than 5
tokens yields the token-count `ParseError` carrying the count printed by
the source (the literal "at least 6" of the message) and the actual token
count, while an input with exactly 5 valid time tokens succeeds with an
empty task. -/
theorem claim_C5_token_count :
    (∀ e : List Char, (goFields e).length < 5 →
      Parse e = .error (.tooFewFields 6 (goFields e).length)) ∧
    (∀ (e t0 t1 t2 t3 t4 : List Char) (f0 f1 f2 f3 f4 : Field),
      goFields e = [t0, t1, t2, t3, t4] →
      parseField t0 = some f0 → parseField t1 = some f1 →
      parseField t2 = some f2 → parseField t3 = some f3 →
      parseField t4 = some f4 →
      Parse e = .ok ⟨f0, f1, f2, f3, f4, []⟩) := by
  constructor
  · intro e hlt
    unfold Parse
    split
    · rename_i t0 t1 t2 t3 t4 rest heq
      rw [heq] at hlt
      simp only [List.length_cons] at hlt
      omega
    · rfl
  · intro e t0 t1 t2 t3 t4 f0 f1 f2 f3 f4 heq h0 h1 h2 h3 h4
    rw [Parse_cons heq, parseJobFields_ok h0 h1 h2 h3 h4]
    rfl

theorem claim_C5_witness :
    ((goFields ("* * * *".toList)).length < 5 ∧
      Parse ("* * * *".toList) =
        .error (.tooFewFields 6 (goFields ("* * * *".toList)).length)) ∧
    (goFields ("* * * * *".toList) = [['*'], ['*'], ['*'], ['*'], ['*']] ∧
      Parse ("* * * * *".toList) =
        .ok ⟨⟨.Every, []⟩, ⟨.Every, []⟩, ⟨.Every, []⟩, ⟨.Every, []⟩,
          ⟨.Every, []⟩, []⟩) :=
  ⟨⟨by decide, claim_C5_token_count.1 ("* * * *".toList) (by decide)⟩,
    ⟨by decide, claim_C5_token_count.2 ("* * * * *".toList)
      ['*'] ['*'] ['*'] ['*'] ['*'] _ _ _ _ _ (by decide) (by decide)
      (by decide) (by decide) (by decide) (by decide)⟩⟩

/-- C6 counterexample: the claim says every `Field` violating its kind's
value-count invariant fails loudly when rendered, but a `Field` of kind
`Every` with one stored value violates the invariant (`Every` requires
zero values) and still renders as `"*"` without panicking. -/
theorem claim_C6_counterexample :
    ¬ kindInvariant ⟨.Every, [1]⟩ ∧
      Field.string ⟨.Every, [1]⟩ = some ['*'] := by
  constructor
  · intro h
    simp [kindInvariant] at h
  · rfl

/-- C6 (amended): rendering a `Field` of kind `Exact`, `Multiple`,
`Range` or `Step` whose value count violates its kind's invariant panics
rather than returning a string; `Every` and `Any` render as `"*"` and
`"?"` regardless of their stored values. -/
theorem claim_C6_amended :
    (∀ f : Field, ¬ kindInvariant f →
      (f.type = .Exact ∨ f.type = .Multiple ∨ f.type = .Range ∨ f.type = .Step) →
      Field.string f = none) ∧
    (∀ vs : List Int,
      Field.string ⟨.Every, vs⟩ = some ['*'] ∧
      Field.string ⟨.Any, vs⟩ = some ['?']) := by
  constructor
  · intro f hinv hty
    obtain ⟨ty, vs⟩ := f
    simp only at hty
    cases ty with
    | Exact =>
      rcases vs with _ | ⟨v, _ | ⟨w, rest⟩⟩
      · rfl
      · exact absurd (by simp [kindInvariant]) hinv
      · rfl
    | Every => simp at hty
    | Multiple =>
      rcases vs with _ | ⟨v, vs'⟩
      · rfl
      · exact absurd (by simp [kindInvariant]) hinv
    | Range =>
      rcases vs with _ | ⟨a, _ | ⟨b, _ | ⟨c, rest⟩⟩⟩
      · rfl
      · rfl
      · exact absurd (by simp [kindInvariant]) hinv
      · rfl
    | Step =>
      rcases vs with _ | ⟨v, _ | ⟨w, rest⟩⟩
      · rfl
      · exact absurd (by simp [kindInvariant]) hinv
      · rfl
    | Any => simp at hty
  · intro vs
    exact ⟨rfl, rfl⟩

theorem claim_C6_witness :
    ¬ kindInvariant ⟨.Exact, []⟩ ∧ Field.string ⟨.Exact, []⟩ = none :=
  ⟨by intro h; simp [kindInvariant] at h,
    claim_C6_amended.1 ⟨.Exact, []⟩ (by intro h; simp [kindInvariant] at h)
      (Or.inl rfl)⟩

/-- C7: every `Field` produced by a successful `parseField` satisfies its
kind's value-count invariant, and rendering such a `Field` never hits the
panic path (its rendering is always `some`). -/
theorem claim_C7_parse_invariant :
    ∀ (t : List Char) (f : Field), parseField t = some f →
      kindInvariant f ∧ (Field.string f).isSome = true := by
  intro t f h
  constructor
  · rcases parseFieldTrimmed_inv
        (show parseFieldTrimmed (goTrimSpace t) = some f from h) with
      rfl | ⟨v, rfl, _, _⟩ | ⟨vs, rfl, hlen, _⟩ |
      ⟨lo, hi, rfl, _, _, _, _⟩ | rfl | ⟨v, rfl, _, _⟩
    · simp [kindInvariant]
    · simp [kindInvariant]
    · simp only [kindInvariant]
      omega
    · simp [kindInvariant]
    · simp [kindInvariant]
    · simp [kindInvariant]
  · obtain ⟨r, hr, _⟩ := parseField_string_roundtrip h
    rw [hr]
    rfl

theorem claim_C7_witness :
    parseField ("1,2".toList) = some ⟨.Multiple, [1, 2]⟩ ∧
    (kindInvariant ⟨.Multiple, [1, 2]⟩ ∧
      (Field.string (⟨.Multiple, [1, 2]⟩ : Field)).isSome = true) :=
  ⟨by decide, claim_C7_parse_invariant ("1,2".toList) ⟨.Multiple, [1, 2]⟩
    (by decide)⟩

/-- C8: a `Range` field with low > high is accepted by the field parser
(shown at the token `"5-2"`, with no order validation), and such a field
matches no integer, since no value is both at least low and at most
high. -/
theorem claim_C8_inverted_range :
    parseField ("5-2".toList) = some ⟨.Range, [5, 2]⟩ ∧
    (∀ lo hi : Int, hi < lo → ∀ x : Int,
      Field.check ⟨.Range, [lo, hi]⟩ x = false) := by
  constructor
  · decide
  · intro lo hi hlt x
    simp only [Field.check]
    rw [Bool.and_eq_false_iff]
    by_cases hx : lo ≤ x
    · right
      simpa using by omega
    · left
      simpa using hx

theorem claim_C8_witness :
    (2 : Int) < 5 ∧ Field.check ⟨.Range, [5, 2]⟩ 3 = false :=
  ⟨by decide, claim_C8_inverted_range.2 5 2 (by decide) 3⟩

/-- C9 counterexample: the claim says a `"*/"`-prefixed token has its
remainder parsed as a non-negative integer, but the source's
`strconv.Atoi` accepts a sign, so the token `"*/"` followed by `"-5"`
parses successfully to a `Step` field holding the negative value -5. -/
theorem claim_C9_counterexample :
    parseField ("*/-5".toList) = some ⟨.Step, [-5]⟩ ∧ (-5 : Int) < 0 := by
  constructor
  · decide
  · decide

/-- C9 (amended): for every token that trims to `"*/"` followed by a
remainder, the field parser parses the remainder as a single (optionally
signed) integer and returns a `Step` field with that value; it fails with
a `ParseError` exactly when the remainder is not a valid integer. -/
theorem claim_C9_amended :
    ∀ (t rest : List Char), goTrimSpace t = '*' :: '/' :: rest →
      parseField t = (goAtoi rest).map fun v => ⟨.Step, [v]⟩ := by
  intro t rest htrim
  unfold parseField
  rw [htrim]
  exact parseFieldTrimmed_step rest

theorem claim_C9_witness :
    goTrimSpace ("*/7".toList) = '*' :: '/' :: ['7'] ∧
    parseField ("*/7".toList) = (goAtoi ['7']).map fun v => ⟨.Step, [v]⟩ :=
  ⟨by decide, claim_C9_amended ("*/7".toList) ['7'] (by decide)⟩

/-- C10: parsing `"*/0"` produces a `Step` field with divisor 0, and for
every `Step` field whose single stored divisor is zero or negative the
match predicate returns `false` for every integer (the guard fires before
the modulo, so the predicate is total and never divides by zero). -/
theorem claim_C10_step_guard :
    parseField ("*/0".toList) = some ⟨.Step, [0]⟩ ∧
    (∀ n : Int, n ≤ 0 → ∀ x : Int, Field.check ⟨.Step, [n]⟩ x = false) := by
  constructor
  · decide
  · intro n hn x
    simp [Field.check, hn]

theorem claim_C10_witness :
    (0 : Int) ≤ 0 ∧ Field.check ⟨.Step, [0]⟩ 7 = false :=
  ⟨le_refl 0, claim_C10_step_guard.2 0 (le_refl 0) 7⟩

/-! ### Concrete sanity checks of the embedding -/

example : parseField ("*".toList) = some ⟨.Every, []⟩ := by decide
example : parseField ("*/-5".toList) = some ⟨.Step, [-5]⟩ := by decide
example :
    Parse ("* */5 5 * * echo hi".toList) =
      .ok ⟨⟨.Every, []⟩, ⟨.Step, [5]⟩, ⟨.Exact, [5]⟩, ⟨.Every, []⟩,
        ⟨.Every, []⟩, ("echo hi".toList)⟩ := by decide
example : Parse ("* * * *".toList) = .error (.tooFewFields 6 4) := by decide
example :
    Job.string ⟨⟨.Every, []⟩, ⟨.Step, [5]⟩, ⟨.Exact, [5]⟩, ⟨.Every, []⟩,
      ⟨.Every, []⟩, []⟩ = some ("* */5 5 * *".toList) := by decide

end Cron
